import Mathlib

/-!
Verification development for the symbulate random-process simulation core
(src/symbulate/markov_chains.py and src/symbulate/distributions.py).

Modelling conventions:
- real-valued quantities (matrix entries, times) are rationals;
- a drawn outcome of the joint sample space is a pair of functions
  (states : Nat to Nat, times : Nat to Rat), standing for the two lazy
  sequences carried by one draw;
- Python exceptions are modelled with Except String, the string being the
  message of the raised exception;
- the unbounded while loop of the continuous-time evaluation rule is
  modelled with explicit fuel; exhausting the fuel stands for the loop not
  having terminated within that many iterations.
-/

namespace Symbulate

/-- Inner loop of ContinuousTimeMarkovChain.check_generator: the pass over
enumerate(row) for the row of index i, with j the current column counter.
A positive diagonal entry or a negative off-diagonal entry raises, with the
message of the source. -/
def checkRowEntries (i : ℕ) : ℕ → List ℚ → Except String Unit
  | _, [] => Except.ok ()
  | j, q :: rest =>
    if j = i then
      if q > 0 then
        Except.error "Diagonal elements of a generator matrix cannot be positive."
      else checkRowEntries i (j + 1) rest
    else
      if q < 0 then
        Except.error "Off-diagonal elements of a generator matrix cannot be negative."
      else checkRowEntries i (j + 1) rest

/-- Outer loop of check_generator over enumerate(self.generator_matrix),
with i the current row counter: the row sum is checked first, then the
entries of the row in order. -/
def checkRows : ℕ → List (List ℚ) → Except String Unit
  | _, [] => Except.ok ()
  | i, row :: rest =>
    if row.sum ≠ 0 then Except.error "Rows of a generator matrix must sum to 0."
    else
      match checkRowEntries i 0 row with
      | Except.ok _ => checkRows (i + 1) rest
      | Except.error e => Except.error e

/-- ContinuousTimeMarkovChain.check_generator. -/
def check_generator (g : List (List ℚ)) : Except String Unit := checkRows 0 g

/-- One row of the embedded transition matrix, as built by the list
comprehension in ContinuousTimeMarkovChain.__init__:
[p / rate if j != i else 0 for j, p in enumerate(row)], with r the value
rate = -row[i].  Dividing by a zero rate raises ZeroDivisionError, as in
Python; the diagonal position performs no division. -/
def deriveRowAux (r : ℚ) (i : ℕ) : ℕ → List ℚ → Except String (List ℚ)
  | _, [] => Except.ok []
  | j, p :: rest =>
    if j = i then
      match deriveRowAux r i (j + 1) rest with
      | Except.ok l => Except.ok (0 :: l)
      | Except.error e => Except.error e
    else if r = 0 then Except.error "ZeroDivisionError: division by zero"
    else
      match deriveRowAux r i (j + 1) rest with
      | Except.ok l => Except.ok (p / r :: l)
      | Except.error e => Except.error e

/-- The loop of ContinuousTimeMarkovChain.__init__ that builds
self.transition_matrix row by row; rate = -row[i] reads the diagonal entry
of the current row (an out-of-range read raises IndexError in Python). -/
def deriveRows : ℕ → List (List ℚ) → Except String (List (List ℚ))
  | _, [] => Except.ok []
  | i, row :: rest =>
    if i < row.length then
      match deriveRowAux (-(row.getD i 0)) i 0 row with
      | Except.error e => Except.error e
      | Except.ok tr =>
        match deriveRows (i + 1) rest with
        | Except.error e => Except.error e
        | Except.ok trs => Except.ok (tr :: trs)
    else Except.error "IndexError: list index out of range"

/-- The embedded transition matrix derived from a generator matrix. -/
def transitionMatrixOf (g : List (List ℚ)) : Except String (List (List ℚ)) :=
  deriveRows 0 g

/-- ContinuousTimeMarkovChain.__init__ up to and including the derivation
of the embedded transition matrix: check_generator runs first, then the
transition matrix is built.  Any raised exception propagates; a returned
matrix means construction of the chain succeeded. -/
def ctmcInit (g : List (List ℚ)) : Except String (List (List ℚ)) :=
  match check_generator g with
  | Except.error e => Except.error e
  | Except.ok _ => transitionMatrixOf g

/-- The holding rate read by the evaluation rule and the derived processes:
rate = -self.generator_matrix[state][state]. -/
def rate (g : List (List ℚ)) (s : ℕ) : ℚ := -((g.getD s []).getD s 0)

/-- The while loop of the evaluation rule fun(x, t) of
ContinuousTimeMarkovChain.__init__, returning the index n at which the loop
breaks (the value of the process is then states n).  n is the current
index and total the accumulated total_time; fuel bounds the number of
iterations, fuel 0 meaning the loop has not terminated. -/
def ctmcLoop (g : List (List ℚ)) (states : ℕ → ℕ) (times : ℕ → ℚ) (t : ℚ) :
    ℕ → ℕ → ℚ → Except String ℕ
  | 0, _, _ => Except.error "nontermination"
  | fuel + 1, n, total =>
    let r := rate g (states n)
    if r = 0 then Except.error "ZeroDivisionError: division by zero"
    else
      let total2 := total + times n / r
      if total2 > t then Except.ok n
      else ctmcLoop g states times t fuel (n + 1) total2

/-- The index at which the evaluation rule stops for query time t,
starting as in the source from n = 0 and total_time = 0. -/
def ctmcStop (g : List (List ℚ)) (states : ℕ → ℕ) (times : ℕ → ℚ) (t : ℚ)
    (fuel : ℕ) : Except String ℕ :=
  ctmcLoop g states times t fuel 0 0

/-- The value returned by the evaluation rule fun(x, t): the state at the
stopping index (state_labels is None, so the raw state is returned). -/
def ctmcAt (g : List (List ℚ)) (states : ℕ → ℕ) (times : ℕ → ℚ) (t : ℚ)
    (fuel : ℕ) : Except String ℕ :=
  Except.map states (ctmcStop g states times t fuel)

/-- The evaluation rule of ContinuousTimeMarkovChain.JumpTimes().
The source loop is `for i in range(n)` but its body reads states[n] and
times[n], never the loop variable i; the fold below reproduces that
verbatim, so each of the n iterations adds the same summand. -/
def jumpTimesAt (g : List (List ℚ)) (states : ℕ → ℕ) (times : ℕ → ℚ)
    (n : ℕ) : ℚ :=
  (List.range n).foldl (fun total _ => total + times n / rate g (states n)) 0

/-- The evaluation rule of ContinuousTimeMarkovChain.InterjumpTimes():
times[n] / rate(states[n]). -/
def interjumpTimesAt (g : List (List ℚ)) (states : ℕ → ℕ) (times : ℕ → ℚ)
    (n : ℕ) : ℚ :=
  times n / rate g (states n)

/-- The cumulative jump time as the specification words it: the sum over
i in 0..n-1 of times[i] / rate(states[i]).  Written from the spec, for
comparison with jumpTimesAt, which embeds the source. -/
def jumpTimesSpec (g : List (List ℚ)) (states : ℕ → ℕ) (times : ℕ → ℚ)
    (n : ℕ) : ℚ :=
  ((List.range n).map (fun i => interjumpTimesAt g states times i)).sum

/-- State of the process-wide numpy random generator: the seed it was last
seeded with and how many draws have been consumed since. -/
structure NpRng where
  seed : ℕ
  pos : ℕ

/-- np.random.seed(s): resets the global generator, discarding its
previous state. -/
def npSeed (s : ℕ) (_ : NpRng) : NpRng := ⟨s, 0⟩

/-- np.random.choice(range(m), p): one draw from the global generator.
rc abstracts the deterministic value numpy produces for a given seed,
stream position and probability vector; the draw advances the stream. -/
def npChoice (rc : ℕ → ℕ → List ℚ → ℕ) (p : List ℚ) (r : NpRng) : ℕ × NpRng :=
  (rc r.seed r.pos p, ⟨r.seed, r.pos + 1⟩)

/-- One iteration of the loop in MarkovChain's x(n):
state = np.random.choice(range(m), p=transition_matrix[state]). -/
def markovStep (rc : ℕ → ℕ → List ℚ → ℕ) (P : List (List ℚ))
    (sr : ℕ × NpRng) : ℕ × NpRng :=
  npChoice rc (P.getD sr.1 []) sr.2

/-- MarkovChain's index rule x(n), as a transformer of the global numpy
generator state g: np.random.seed(seed), one draw from initial_dist, then
n transition draws.  Returns the state reached (the value of x(n),
state_labels being None) together with the generator state left behind. -/
def markovX (rc : ℕ → ℕ → List ℚ → ℕ) (P : List (List ℚ)) (ini : List ℚ)
    (seed : ℕ) (n : ℕ) (g : NpRng) : ℕ × NpRng :=
  (markovStep rc P)^[n] (npChoice rc ini (npSeed seed g))

/-- A concrete determinstic choice rule satisfying the degenerate-vector
contract of np.random.choice: it returns the index of the first nonzero
probability. -/
def rcFirst (_ : ℕ) (_ : ℕ) (p : List ℚ) : ℕ :=
  p.findIdx (fun q => decide (q ≠ 0))

/-- Bernoulli.__init__(p): when p lies in [0, 1] the attribute p is set,
otherwise the else branch is `pass`, so construction returns normally with
the attribute left unset (None).  Either way no exception is raised, hence
the Except.ok on both branches. -/
def bernoulliInit (p : ℚ) : Except String (Option ℚ) :=
  if 0 ≤ p ∧ p ≤ 1 then Except.ok (some p) else Except.ok none

/-- Bernoulli.draw(): np.random.binomial(n=1, p=self.p).  Reading the
attribute p when it was never assigned raises AttributeError; binomial
abstracts the numpy draw. -/
def bernoulliDraw (binomial : ℚ → ℕ) (pAttr : Option ℚ) : Except String ℕ :=
  match pAttr with
  | some p => Except.ok (binomial p)
  | none => Except.error "AttributeError: Bernoulli object has no attribute p"

/-- Modelled from the spec: RandomProcess.at (the file
src/symbulate/random_processes.py is not part of the sources).  Per the
spec, at(outcome, time) fails with DomainError if time is negative and
otherwise invokes the evaluation rule on the drawn outcome and the time. -/
def processAt {α β : Type} (rule : α → ℚ → Except String β) (x : α)
    (t : ℚ) : Except String β :=
  if t < 0 then Except.error "DomainError" else rule x t

/-- A row of a generator matrix violates the invariants when its sum is
nonzero, its diagonal entry is positive, or an off-diagonal entry is
negative. -/
def rowViolation (i : ℕ) (row : List ℚ) : Prop :=
  row.sum ≠ 0 ∨ ∃ j, j < row.length ∧
    ((j = i ∧ 0 < row.getD j 0) ∨ (j ≠ i ∧ row.getD j 0 < 0))

/-- Some row of the generator matrix violates the invariants. -/
def generatorViolation (g : List (List ℚ)) : Prop :=
  ∃ i, i < g.length ∧ rowViolation i (g.getD i [])

/-- Concrete states path used when refuting the jump-time claim:
0, 1, 0, 1, ... -/
def stC1 (n : ℕ) : ℕ := n % 2

/-- Concrete holding-time draws used when refuting the jump-time claim. -/
def tmC1N (n : ℕ) : ℚ := if n = 0 then 1 else if n = 1 then 4 else 1 / 100

attribute [local semireducible] Rat.add Rat.mul Rat.sub Rat.inv

/-- A list entry read past the end of the list defaults to 0. -/
theorem getD_zero_of_le (l : List ℚ) (n : ℕ) (h : l.length ≤ n) :
    l.getD n 0 = 0 := by
  simp [List.getD_eq_getElem?_getD, List.getElem?_eq_none h]

/-- The entry pass over a row raises exactly when some entry of the row,
at its position in the whole row, violates the sign invariants. -/
theorem checkRowEntries_error_iff (i : ℕ) (row : List ℚ) :
    ∀ j, (∃ e, checkRowEntries i j row = Except.error e) ↔
      ∃ k, k < row.length ∧
        ((j + k = i ∧ 0 < row.getD k 0) ∨ (j + k ≠ i ∧ row.getD k 0 < 0)) := by
  induction row with
  | nil => intro j; simp [checkRowEntries]
  | cons q rest ih =>
    intro j
    by_cases hji : j = i
    · by_cases hq : q > 0
      · simp only [checkRowEntries, if_pos hji, if_pos hq]
        constructor
        · intro _
          exact ⟨0, by simp, Or.inl ⟨by omega, by simpa using hq⟩⟩
        · intro _
          exact ⟨_, rfl⟩
      · simp only [checkRowEntries, if_pos hji, if_neg hq]
        rw [ih (j + 1)]
        constructor
        · rintro ⟨k, hk, ⟨he, hv⟩ | ⟨he, hv⟩⟩
          · exact ⟨k + 1, by simpa using hk, Or.inl ⟨by omega, by simpa using hv⟩⟩
          · exact ⟨k + 1, by simpa using hk, Or.inr ⟨by omega, by simpa using hv⟩⟩
        · rintro ⟨k, hk, h⟩
          match k, h with
          | 0, Or.inl ⟨he, hv⟩ => exact absurd (by simpa using hv) hq
          | 0, Or.inr ⟨he, hv⟩ => exact absurd (by omega) he
          | k + 1, Or.inl ⟨he, hv⟩ =>
            exact ⟨k, by simpa using hk, Or.inl ⟨by omega, by simpa using hv⟩⟩
          | k + 1, Or.inr ⟨he, hv⟩ =>
            exact ⟨k, by simpa using hk, Or.inr ⟨by omega, by simpa using hv⟩⟩
    · by_cases hq : q < 0
      · simp only [checkRowEntries, if_neg hji, if_pos hq]
        constructor
        · intro _
          exact ⟨0, by simp, Or.inr ⟨by omega, by simpa using hq⟩⟩
        · intro _
          exact ⟨_, rfl⟩
      · simp only [checkRowEntries, if_neg hji, if_neg hq]
        rw [ih (j + 1)]
        constructor
        · rintro ⟨k, hk, ⟨he, hv⟩ | ⟨he, hv⟩⟩
          · exact ⟨k + 1, by simpa using hk, Or.inl ⟨by omega, by simpa using hv⟩⟩
          · exact ⟨k + 1, by simpa using hk, Or.inr ⟨by omega, by simpa using hv⟩⟩
        · rintro ⟨k, hk, h⟩
          match k, h with
          | 0, Or.inl ⟨he, hv⟩ => exact absurd (by omega) hji
          | 0, Or.inr ⟨he, hv⟩ => exact absurd (by simpa using hv) hq
          | k + 1, Or.inl ⟨he, hv⟩ =>
            exact ⟨k, by simpa using hk, Or.inl ⟨by omega, by simpa using hv⟩⟩
          | k + 1, Or.inr ⟨he, hv⟩ =>
            exact ⟨k, by simpa using hk, Or.inr ⟨by omega, by simpa using hv⟩⟩

/-- The row pass raises exactly when some row, at its position in the
matrix, violates the row invariants. -/
theorem checkRows_error_iff (rows : List (List ℚ)) :
    ∀ i, (∃ e, checkRows i rows = Except.error e) ↔
      ∃ k, k < rows.length ∧ rowViolation (i + k) (rows.getD k []) := by
  induction rows with
  | nil => intro i; simp [checkRows]
  | cons row rest ih =>
    intro i
    by_cases hs : row.sum ≠ 0
    · simp only [checkRows, if_pos hs]
      constructor
      · intro _
        exact ⟨0, by simp, Or.inl (by simpa using hs)⟩
      · intro _
        exact ⟨_, rfl⟩
    · cases hE : checkRowEntries i 0 row with
      | ok u =>
        have hrec : checkRows i (row :: rest) = checkRows (i + 1) rest := by
          simp [checkRows, hs, hE]
        rw [hrec, ih (i + 1)]
        have hnoentry : ¬ ∃ k, k < row.length ∧
            ((k = i ∧ 0 < row.getD k 0) ∨ (k ≠ i ∧ row.getD k 0 < 0)) := by
          intro hex
          have h0 := (checkRowEntries_error_iff i row 0).mpr (by simpa using hex)
          rcases h0 with ⟨e, he⟩
          rw [hE] at he
          exact Except.noConfusion he
        constructor
        · rintro ⟨k, hk, h⟩
          refine ⟨k + 1, by simpa using hk, ?_⟩
          have : i + (k + 1) = (i + 1) + k := by omega
          rw [this]
          simpa using h
        · rintro ⟨k, hk, h⟩
          match k with
          | 0 =>
            exfalso
            rcases h with h | h
            · exact hs (by simpa using h)
            · refine hnoentry ?_
              rcases h with ⟨j, hj, hcond⟩
              exact ⟨j, by simpa using hj, by simpa using hcond⟩
          | k + 1 =>
            refine ⟨k, by simpa using hk, ?_⟩
            have : (i + 1) + k = i + (k + 1) := by omega
            rw [this]
            simpa using h
      | error e =>
        have hrec : checkRows i (row :: rest) = Except.error e := by
          simp [checkRows, hs, hE]
        rw [hrec]
        constructor
        · intro _
          refine ⟨0, by simp, Or.inr ?_⟩
          have h0 := (checkRowEntries_error_iff i row 0).mp ⟨e, hE⟩
          rcases h0 with ⟨k, hk, h⟩
          exact ⟨k, by simpa using hk, by simpa using h⟩
        · intro _
          exact ⟨e, rfl⟩

/-- Claim C1 (code bug in the source): the JumpTimes evaluation rule reads
states[n] and times[n] inside its loop instead of states[i] and times[i],
so at the concrete outcome (states 0,1,0,..., times 1,4,1/100,...) of the
chain with generator [[-1,1],[2,-2]] the value at n = 1 is 2 rather than
the cumulative time 1 stated by the spec, differs from the sum of the
interjump times, and decreases from n = 1 to n = 2. -/
theorem jumpTimes_index_bug :
    jumpTimesAt [[-1, 1], [2, -2]] stC1 tmC1N 1 = 2 ∧
    jumpTimesSpec [[-1, 1], [2, -2]] stC1 tmC1N 1 = 1 ∧
    interjumpTimesAt [[-1, 1], [2, -2]] stC1 tmC1N 0 = 1 ∧
    jumpTimesAt [[-1, 1], [2, -2]] stC1 tmC1N 2 < jumpTimesAt [[-1, 1], [2, -2]] stC1 tmC1N 1 := by
  refine ⟨by decide, by decide, by decide, by decide⟩

/-- Claim C2, counterexample to the claim as stated: the exception raised
for an invalid generator matrix is a generic Exception with a fixed
message; the message raised when the offending row is row 0 with row sum 1
is identical to the one raised when the offending row is row 1 with row
sum 2, so the error does not name the offending row, column or value. -/
theorem check_generator_fixed_message :
    check_generator [[-2, 1, 2]] = Except.error "Rows of a generator matrix must sum to 0." ∧
    check_generator [[-1, 1, 0], [-2, 1, 3]] =
      Except.error "Rows of a generator matrix must sum to 0." := by
  exact ⟨rfl, rfl⟩

/-- Claim C2 (amended): construction fails with a generic Exception whose
fixed message states which invariant is violated, if and only if some row
of the generator matrix violates row sum = 0, diagonal at most 0, or
off-diagonal at least 0; any such failure of check_generator propagates
out of construction unchanged; row [-2,1,1] passes while [-2,1,2], [1,-1]
and [-1,-1] each fail at construction. -/
theorem check_generator_error_iff :
    (∀ g : List (List ℚ),
      (∃ e, check_generator g = Except.error e) ↔ generatorViolation g) ∧
    (∀ g e, check_generator g = Except.error e → ctmcInit g = Except.error e) ∧
    check_generator [[-2, 1, 1]] = Except.ok () ∧
    check_generator [[-2, 1, 2]] =
      Except.error "Rows of a generator matrix must sum to 0." ∧
    check_generator [[1, -1]] =
      Except.error "Diagonal elements of a generator matrix cannot be positive." ∧
    check_generator [[-1, -1]] =
      Except.error "Rows of a generator matrix must sum to 0." := by
  refine ⟨?_, ?_, rfl, rfl, rfl, rfl⟩
  · intro g
    rw [check_generator, checkRows_error_iff g 0]
    constructor
    · rintro ⟨k, hk, h⟩
      exact ⟨k, hk, by simpa using h⟩
    · rintro ⟨k, hk, h⟩
      exact ⟨k, hk, by simpa using h⟩
  · intro g e h
    simp [ctmcInit, h]

/-- Claim C2, witness: the general equivalence applied to the concrete
matrix [[-2,1,2]], whose only row has sum 1. -/
theorem check_generator_error_iff_witness :
    ∃ e, check_generator [[-2, 1, 2]] = Except.error e := by
  refine (check_generator_error_iff.1 [[-2, 1, 2]]).mpr ⟨0, by decide, Or.inl ?_⟩
  decide

/-- Claim C6 (spec-modelled): evaluating any RandomProcess at a negative
time fails with DomainError, and the evaluation rule is never consulted,
so no partial result is produced. -/
theorem process_at_negative_time {α β : Type} (rule : α → ℚ → Except String β)
    (x : α) (t : ℚ) (ht : t < 0) :
    processAt rule x t = Except.error "DomainError" ∧
    ∀ rule2 : α → ℚ → Except String β, processAt rule x t = processAt rule2 x t := by
  constructor
  · simp [processAt, ht]
  · intro rule2
    simp [processAt, ht]

/-- Claim C6, witness at time -1. -/
theorem process_at_negative_time_witness :
    processAt (fun (_ : ℕ) (_ : ℚ) => Except.ok (0 : ℕ)) 0 (-1) =
      Except.error "DomainError" :=
  (process_at_negative_time (fun _ _ => Except.ok 0) 0 (-1) (by decide)).1

/-- Claim C7: within one draw of a MarkovChain the index rule x reseeds
the global numpy generator before replaying, so the value it returns for
an index does not depend on the global generator state, hence two queries
of the same index return identical values and a query of any other index m
beforehand does not perturb the value later returned for n. -/
theorem markov_query_consistency
    (rc : ℕ → ℕ → List ℚ → ℕ) (P : List (List ℚ)) (ini : List ℚ)
    (seed m n : ℕ) (r1 r2 : NpRng) :
    (markovX rc P ini seed n r1).1 = (markovX rc P ini seed n r2).1 ∧
    (markovX rc P ini seed n (markovX rc P ini seed m r1).2).1 =
      (markovX rc P ini seed n r1).1 :=
  ⟨rfl, rfl⟩

/-- Claim C9: a Bernoulli probability outside [0,1] is silently ignored at
construction (no exception, the attribute p is left unset), and a
subsequent draw on the object fails with an AttributeError rather than a
validation error. -/
theorem bernoulli_invalid_p_silent (p : ℚ) (hp : ¬(0 ≤ p ∧ p ≤ 1)) :
    bernoulliInit p = Except.ok none ∧
    ∀ binomial : ℚ → ℕ, bernoulliDraw binomial none =
      Except.error "AttributeError: Bernoulli object has no attribute p" := by
  constructor
  · simp [bernoulliInit, hp]
  · intro b
    rfl

/-- Claim C9, witness at p = 2. -/
theorem bernoulli_invalid_p_silent_witness :
    bernoulliInit 2 = Except.ok none ∧
    ∀ binomial : ℚ → ℕ, bernoulliDraw binomial none =
      Except.error "AttributeError: Bernoulli object has no attribute p" :=
  bernoulli_invalid_p_silent 2 (by decide)

/-- Claim C10: the generator matrix [[-1,1],[0,0]] passes check_generator
(its second row is an absorbing state: all zero), yet construction of the
chain raises ZeroDivisionError while deriving the embedded transition
matrix, because the holding rate of state 1 is 0; the same zero rate makes
the evaluation rule raise ZeroDivisionError once the path reaches state 1. -/
theorem validated_generator_division_by_zero :
    ∃ g : List (List ℚ),
      check_generator g = Except.ok () ∧
      ctmcInit g = Except.error "ZeroDivisionError: division by zero" ∧
      ∃ s, s < g.length ∧ rate g s = 0 ∧
        ctmcAt g (fun _ => s) (fun _ => 1) 0 5 =
          Except.error "ZeroDivisionError: division by zero" := by
  refine ⟨[[-1, 1], [0, 0]], by rfl, by rfl, 1, by decide, by decide, by rfl⟩

/-- When the holding rate r is nonzero, the row comprehension succeeds and
the entry at offset k is 0 on the diagonal position and the generator
entry divided by r elsewhere. -/
theorem deriveRowAux_ok (r : ℚ) (i : ℕ) (hr : r ≠ 0) (row : List ℚ) :
    ∀ j, ∃ l, deriveRowAux r i j row = Except.ok l ∧ l.length = row.length ∧
      ∀ k, k < row.length →
        l.getD k 0 = if j + k = i then 0 else row.getD k 0 / r := by
  induction row with
  | nil => intro j; exact ⟨[], rfl, rfl, fun k hk => by simp at hk⟩
  | cons p rest ih =>
    intro j
    obtain ⟨l, hl, hlen, hk⟩ := ih (j + 1)
    by_cases hji : j = i
    · refine ⟨0 :: l, ?_, by simp [hlen], ?_⟩
      · simp only [deriveRowAux, if_pos hji, hl]
      · intro k hk2
        match k with
        | 0 => simp [hji]
        | k + 1 =>
          have hrec := hk k (by simpa using hk2)
          simp only [List.getD_cons_succ]
          rw [hrec]
          by_cases hcase : j + 1 + k = i
          · rw [if_pos hcase, if_pos (by omega)]
          · rw [if_neg hcase, if_neg (by omega)]
    · refine ⟨p / r :: l, ?_, by simp [hlen], ?_⟩
      · simp only [deriveRowAux, if_neg hji, if_neg hr, hl]
      · intro k hk2
        match k with
        | 0 => simp [hji]
        | k + 1 =>
          have hrec := hk k (by simpa using hk2)
          simp only [List.getD_cons_succ]
          rw [hrec]
          by_cases hcase : j + 1 + k = i
          · rw [if_pos hcase, if_pos (by omega)]
          · rw [if_neg hcase, if_neg (by omega)]

/-- When every diagonal entry read by the derivation loop is strictly
negative, the loop succeeds and produces the embedded transition
probabilities row by row. -/
theorem deriveRows_ok (rows : List (List ℚ)) :
    ∀ i, (∀ k, k < rows.length → (rows.getD k []).getD (i + k) 0 < 0) →
      ∃ P, deriveRows i rows = Except.ok P ∧ P.length = rows.length ∧
        ∀ k j, k < rows.length → j < (rows.getD k []).length →
          (P.getD k []).getD j 0 =
            if j = i + k then 0
            else (rows.getD k []).getD j 0 / (-((rows.getD k []).getD (i + k) 0)) := by
  induction rows with
  | nil => intro i _; exact ⟨[], rfl, rfl, fun k j hk => by simp at hk⟩
  | cons row rest ih =>
    intro i hdiag
    have hd0 : row.getD i 0 < 0 := by simpa using hdiag 0 (by simp)
    have hilen : i < row.length := by
      by_contra hle
      rw [getD_zero_of_le row i (by omega)] at hd0
      exact absurd hd0 (by norm_num)
    have hr : -(row.getD i 0) ≠ 0 := ne_of_gt (neg_pos.mpr hd0)
    obtain ⟨tr, htr, htrlen, htrk⟩ := deriveRowAux_ok (-(row.getD i 0)) i hr row 0
    obtain ⟨P, hP, hPlen, hPk⟩ := ih (i + 1) (fun k hk => by
      have h2 := hdiag (k + 1) (by simpa using hk)
      rw [(show i + (k + 1) = (i + 1) + k by omega)] at h2
      simpa using h2)
    refine ⟨tr :: P, ?_, by simp [hPlen], ?_⟩
    · simp only [deriveRows, if_pos hilen, htr, hP]
    · intro k j hk hj
      match k with
      | 0 =>
        have hrec := htrk j (by simpa using hj)
        rw [Nat.zero_add] at hrec
        simpa using hrec
      | k + 1 =>
        have hk2 : k < rest.length := by simpa using hk
        have hj2 : j < (rest.getD k []).length := by simpa using hj
        have hrec := hPk k j hk2 hj2
        rw [(show (i + 1) + k = i + (k + 1) by omega)] at hrec
        simpa using hrec

/-- Claim C3: for every generator matrix accepted by validation whose
diagonal entries are strictly negative, construction succeeds and the
embedded transition matrix carries P[i][j] = generator[i][j] divided by
-generator[i][i] off the diagonal and 0 on it; in particular the
generator [[-1,1],[2,-2]] yields the embedded transition matrix
[[0,1],[1,0]]. -/
theorem embedded_transition_matrix_correct :
    (∀ g : List (List ℚ), check_generator g = Except.ok () →
      (∀ i, i < g.length → (g.getD i []).getD i 0 < 0) →
      ∃ P, ctmcInit g = Except.ok P ∧ P.length = g.length ∧
        ∀ i j, i < g.length → j < (g.getD i []).length →
          (P.getD i []).getD j 0 =
            if j = i then 0
            else (g.getD i []).getD j 0 / (-((g.getD i []).getD i 0))) ∧
    ctmcInit [[-1, 1], [2, -2]] = Except.ok [[0, 1], [1, 0]] := by
  constructor
  · intro g hchk hdiag
    obtain ⟨P, hP, hPlen, hPk⟩ := deriveRows_ok g 0 (fun k hk => by
      simpa using hdiag k hk)
    refine ⟨P, ?_, hPlen, ?_⟩
    · simp [ctmcInit, hchk, transitionMatrixOf, hP]
    · intro i j hi hj
      have hrec := hPk i j hi hj
      simpa using hrec
  · rfl

/-- Claim C3, witness: the general statement applied to the generator
[[-1,1],[2,-2]]. -/
theorem embedded_transition_matrix_correct_witness :
    ∃ P, ctmcInit [[-1, 1], [2, -2]] = Except.ok P ∧
      P.length = ([[-1, 1], [2, -2]] : List (List ℚ)).length ∧
      ∀ i j, i < ([[-1, 1], [2, -2]] : List (List ℚ)).length →
        j < (([[-1, 1], [2, -2]] : List (List ℚ)).getD i []).length →
        (P.getD i []).getD j 0 =
          if j = i then 0
          else (([[-1, 1], [2, -2]] : List (List ℚ)).getD i []).getD j 0 /
            (-((([[-1, 1], [2, -2]] : List (List ℚ)).getD i []).getD i 0)) :=
  embedded_transition_matrix_correct.1 [[-1, 1], [2, -2]] (by rfl) (by decide)

/-- Claim C4, counterexample to the claim as stated: the 1-by-1 generator
[[0]] is accepted by validation and chain construction succeeds, yet for
the outcome with initial state 0 and first holding-time draw 1 > 0 the
evaluation rule at t = 0 raises ZeroDivisionError instead of returning the
initial state, because the holding rate of state 0 is 0. -/
theorem ctmc_at_zero_counterexample :
    check_generator [[(0 : ℚ)]] = Except.ok () ∧
    ctmcInit [[(0 : ℚ)]] = Except.ok [[0]] ∧
    (0 : ℚ) < 1 ∧
    ∀ fuel, ctmcAt [[(0 : ℚ)]] (fun _ => 0) (fun _ => 1) 0 (fuel + 1) =
      Except.error "ZeroDivisionError: division by zero" := by
  refine ⟨by rfl, by rfl, by decide, ?_⟩
  intro fuel
  rfl

/-- Claim C4 (amended): for every generator matrix accepted by validation
and every outcome whose first holding-time draw is strictly positive and
whose initial state has strictly positive holding rate, the evaluation
rule at time t = 0 executes its loop body once, stops at index n = 0, and
returns the initial state states[0]. -/
theorem ctmc_at_zero (g : List (List ℚ)) (st : ℕ → ℕ) (tm : ℕ → ℚ)
    (hchk : check_generator g = Except.ok ())
    (hr : 0 < rate g (st 0)) (ht : 0 < tm 0) :
    ∀ fuel, ctmcStop g st tm 0 (fuel + 1) = Except.ok 0 ∧
      ctmcAt g st tm 0 (fuel + 1) = Except.ok (st 0) := by
  intro fuel
  have hne : ¬ rate g (st 0) = 0 := ne_of_gt hr
  have hpos : 0 + tm 0 / rate g (st 0) > 0 := by
    rw [zero_add]
    exact div_pos ht hr
  have hstop : ctmcStop g st tm 0 (fuel + 1) = Except.ok 0 := by
    simp only [ctmcStop, ctmcLoop]
    rw [if_neg hne, if_pos hpos]
  exact ⟨hstop, by simp [ctmcAt, hstop, Except.map]⟩

/-- Claim C4, witness: the two-state chain with generator [[-1,1],[1,-1]],
constant initial state 0 and first holding-time draw 1. -/
theorem ctmc_at_zero_witness :
    ctmcStop [[-1, 1], [1, -1]] (fun _ => 0) (fun _ => 1) 0 1 = Except.ok 0 ∧
    ctmcAt [[-1, 1], [1, -1]] (fun _ => 0) (fun _ => 1) 0 1 = Except.ok 0 :=
  ctmc_at_zero [[-1, 1], [1, -1]] (fun _ => 0) (fun _ => 1) (by rfl) (by decide)
    (by decide) 0

/-- The evaluation loop never stops at an index smaller than the one it
starts from. -/
theorem ctmcLoop_le (g : List (List ℚ)) (st : ℕ → ℕ) (tm : ℕ → ℚ) (t : ℚ) :
    ∀ fuel n total m, ctmcLoop g st tm t fuel n total = Except.ok m → n ≤ m := by
  intro fuel
  induction fuel with
  | zero =>
    intro n total m h
    simp [ctmcLoop] at h
  | succ fuel ih =>
    intro n total m h
    simp only [ctmcLoop] at h
    by_cases hrr : rate g (st n) = 0
    · rw [if_pos hrr] at h
      simp at h
    · rw [if_neg hrr] at h
      by_cases hb : total + tm n / rate g (st n) > t
      · rw [if_pos hb] at h
        have hnm : n = m := Except.ok.inj h
        omega
      · rw [if_neg hb] at h
        have := ih (n + 1) _ m h
        omega

/-- Started from the same index and accumulated total, the loop stops for
a lower threshold no later than for a higher one: it breaks at the first
index where the running total exceeds the threshold. -/
theorem ctmcLoop_mono (g : List (List ℚ)) (st : ℕ → ℕ) (tm : ℕ → ℚ)
    (t1 t2 : ℚ) (h12 : t1 ≤ t2) :
    ∀ f1 f2 n total n1 n2,
      ctmcLoop g st tm t1 f1 n total = Except.ok n1 →
      ctmcLoop g st tm t2 f2 n total = Except.ok n2 → n1 ≤ n2 := by
  intro f1
  induction f1 with
  | zero =>
    intro f2 n total n1 n2 h1 h2
    simp [ctmcLoop] at h1
  | succ f1 ih =>
    intro f2 n total n1 n2 h1 h2
    simp only [ctmcLoop] at h1
    by_cases hrr : rate g (st n) = 0
    · rw [if_pos hrr] at h1
      simp at h1
    · rw [if_neg hrr] at h1
      by_cases hb1 : total + tm n / rate g (st n) > t1
      · rw [if_pos hb1] at h1
        have hnm : n = n1 := Except.ok.inj h1
        have := ctmcLoop_le g st tm t2 f2 n total n2 h2
        omega
      · rw [if_neg hb1] at h1
        have hb2 : ¬ total + tm n / rate g (st n) > t2 := by
          push_neg at hb1 ⊢
          exact hb1.trans h12
        cases f2 with
        | zero => simp [ctmcLoop] at h2
        | succ f2 =>
          simp only [ctmcLoop] at h2
          rw [if_neg hrr, if_neg hb2] at h2
          exact ih f2 (n + 1) _ n1 n2 h1 h2

/-- Claim C5: along one outcome, for query times t1 < t2 at which the
evaluation loop terminates, the embedded-chain index at which the loop
stops for t1 is at most the index at which it stops for t2. -/
theorem ctmc_stop_index_monotone (g : List (List ℚ)) (st : ℕ → ℕ)
    (tm : ℕ → ℚ) (t1 t2 : ℚ) (f1 f2 n1 n2 : ℕ) (h : t1 < t2)
    (h1 : ctmcStop g st tm t1 f1 = Except.ok n1)
    (h2 : ctmcStop g st tm t2 f2 = Except.ok n2) : n1 ≤ n2 :=
  ctmcLoop_mono g st tm t1 t2 h.le f1 f2 0 0 n1 n2 h1 h2

/-- Claim C5, witness: the alternating two-state chain with unit holding
draws, queried at times 0 and 3/2, stops at indices 0 and 1. -/
theorem ctmc_stop_index_monotone_witness :
    ctmcStop [[-1, 1], [1, -1]] (fun n => n % 2) (fun _ => 1) 0 1 =
      Except.ok 0 ∧
    ctmcStop [[-1, 1], [1, -1]] (fun n => n % 2) (fun _ => 1) (3 / 2) 2 =
      Except.ok 1 ∧
    0 ≤ 1 :=
  ⟨by rfl, by rfl,
    ctmc_stop_index_monotone [[-1, 1], [1, -1]] (fun n => n % 2) (fun _ => 1)
      0 (3 / 2) 1 2 0 1 (by decide) (by rfl) (by rfl)⟩

/-- One draw of the two-state flip chain: after seeding, the state reached
from initial state 0 by n deterministic transition draws is n mod 2, with
n + 1 draws consumed from the stream. -/
theorem markovX_flip (rc : ℕ → ℕ → List ℚ → ℕ)
    (h0 : ∀ s k, rc s k [1, 0] = 0) (h1 : ∀ s k, rc s k [0, 1] = 1)
    (seed : ℕ) :
    ∀ n r, markovX rc [[0, 1], [1, 0]] [1, 0] seed n r =
      (n % 2, ⟨seed, n + 1⟩) := by
  intro n
  induction n with
  | zero =>
    intro r
    simp only [markovX, Function.iterate_zero, id_eq, npChoice, npSeed]
    rw [h0]
  | succ n ih =>
    intro r
    simp only [markovX, Function.iterate_succ_apply']
    have hih := ih r
    simp only [markovX] at hih
    rw [hih]
    rcases Nat.mod_two_eq_zero_or_one n with hm | hm
    · rw [hm]
      simp only [markovStep, npChoice, List.getD_cons_zero]
      rw [h1, (show (n + 1) % 2 = 1 by omega)]
    · rw [hm]
      simp only [markovStep, npChoice, List.getD_cons_succ, List.getD_cons_zero]
      rw [h0, (show (n + 1) % 2 = 0 by omega)]

/-- Claim C8: with transition matrix [[0,1],[1,0]] and initial
distribution [1,0], every draw of the MarkovChain satisfies
x(n) = n mod 2 for every n: the path starts at 0 and alternates strictly
between 0 and 1.  The hypotheses state the contract of np.random.choice
on the two degenerate probability vectors involved: it returns the unique
index carrying probability 1. -/
theorem markov_alternating (rc : ℕ → ℕ → List ℚ → ℕ)
    (h0 : ∀ s k, rc s k [1, 0] = 0) (h1 : ∀ s k, rc s k [0, 1] = 1)
    (seed n : ℕ) (r : NpRng) :
    (markovX rc [[0, 1], [1, 0]] [1, 0] seed n r).1 = n % 2 := by
  rw [markovX_flip rc h0 h1 seed n r]

/-- Claim C8, witness: the first-nonzero choice rule satisfies the
degeneracy contract, and the path value at index 5 is 5 mod 2 = 1. -/
theorem markov_alternating_witness :
    (markovX rcFirst [[0, 1], [1, 0]] [1, 0] 7 5 ⟨3, 4⟩).1 = 5 % 2 :=
  markov_alternating rcFirst (fun _ _ => rfl) (fun _ _ => rfl) 7 5 ⟨3, 4⟩

end Symbulate
